import Mathlib

/-!
Verification of the `fina` time-series cache reconciliation engine.

Shallow embedding of the core logic of the `fina` repository:
the SQLite cache service (`src/services/cache/sqlite.ts`), the merge step of the
`fetch security` command (`src/commands/fetchSecurity.ts`), the Alpha Vantage
resampler (`src/providers/alphavantage.ts`) and the output transform pipeline
(`src/services/transform/service.ts`).

JavaScript numbers are modelled as rationals (`ℚ`); optional / possibly
`undefined` fields as `Option`; `dayjs` calendar days and bar datetimes as
natural numbers (day index, resp. minutes since an epoch).
-/

/-- Model of `StorageSecurityBar` from `src/services/cache/ICache.ts`: one OHLCV
observation keyed by `(ticker, interval, datetime)`.  The TypeScript field
`open` is renamed `openPrice` (`open` is a Lean keyword); `datetime` is a day
index (daily bars) or minutes-since-epoch (intraday bars). -/
structure StorageSecurityBar where
  ticker : String
  interval : String
  datetime : Nat
  openPrice : ℚ
  high : ℚ
  low : ℚ
  close : ℚ
  volume : ℚ
  adjClose : Option ℚ
  splitCoefficient : Option ℚ
  dividendAmount : Option ℚ
deriving DecidableEq

instance : Inhabited StorageSecurityBar :=
  ⟨{ ticker := "", interval := "", datetime := 0, openPrice := 0, high := 0,
     low := 0, close := 0, volume := 0, adjClose := none,
     splitCoefficient := none, dividendAmount := none }⟩

/-- Model of `DateRange` from `src/services/cache/ICache.ts`: inclusive day range. -/
structure DateRange where
  startDate : Nat
  endDate : Nat
deriving DecidableEq

/-! ## Cache persistence (`SqliteCacheService.updateSecurityData`)

`updateSecurityData` runs `INSERT OR REPLACE INTO security_bar ...` for each
data point, inside one transaction; the table's primary key is
`(ticker, interval, datetime)`.  The store is modelled as a list of rows;
`INSERT OR REPLACE` deletes any row with the same primary key and inserts the
new row. -/

/-- The composite identity of a bar: the `security_bar` primary key. -/
def barKey (b : StorageSecurityBar) : String × String × Nat :=
  (b.ticker, b.interval, b.datetime)

/-- One `INSERT OR REPLACE` of `b` into store `s`: the row with the same
primary key (if any) is removed, the new row inserted. -/
def upsertBar (s : List StorageSecurityBar) (b : StorageSecurityBar) :
    List StorageSecurityBar :=
  s.filter (fun r => barKey r ≠ barKey b) ++ [b]

/-- Model of `updateSecurityData dataPoints`: the loop
`for (const point of points) insertStmt.run(point)` folded over the store. -/
def updateSecurityData (dataPoints : List StorageSecurityBar)
    (s : List StorageSecurityBar) : List StorageSecurityBar :=
  dataPoints.foldl upsertBar s

theorem updateSecurityData_nil (s : List StorageSecurityBar) :
    updateSecurityData [] s = s := rfl

theorem updateSecurityData_cons (b : StorageSecurityBar)
    (pts : List StorageSecurityBar) (s : List StorageSecurityBar) :
    updateSecurityData (b :: pts) s = updateSecurityData pts (upsertBar s b) := rfl

/-- Splitting lemma: an upsert batch replaces exactly the rows whose key occurs
in the batch, leaving the remaining rows in place; the contribution of the
batch itself is independent of the prior store. -/
theorem updateSecurityData_split (pts : List StorageSecurityBar) :
    ∀ s, updateSecurityData pts s =
      s.filter (fun r => decide (barKey r ∉ pts.map barKey)) ++
        updateSecurityData pts [] := by
  induction pts with
  | nil =>
    intro s
    simp [updateSecurityData]
  | cons b pts ih =>
    intro s
    rw [updateSecurityData_cons, ih (upsertBar s b),
        updateSecurityData_cons, ih (upsertBar [] b)]
    simp only [upsertBar, List.filter_append, List.filter_filter,
      List.map_cons, List.mem_cons, List.append_assoc, List.nil_append,
      List.filter_nil]
    congr 1
    apply List.filter_congr
    intro r _
    by_cases h1 : barKey r = barKey b <;>
      by_cases h2 : barKey r ∈ pts.map barKey <;> simp [h1, h2]

/-- Every row of the store after an upsert batch came from the prior store or
from the batch. -/
theorem mem_updateSecurityData (pts : List StorageSecurityBar) :
    ∀ s r, r ∈ updateSecurityData pts s → r ∈ s ∨ r ∈ pts := by
  induction pts with
  | nil => intro s r h; exact Or.inl h
  | cons b pts ih =>
    intro s r h
    rw [updateSecurityData_cons] at h
    rcases ih _ r h with h' | h'
    · rcases List.mem_append.mp h' with h'' | h''
      · exact Or.inl (List.mem_of_mem_filter h'')
      · simp only [List.mem_singleton] at h''
        exact Or.inr (h'' ▸ List.mem_cons_self b pts)
    · exact Or.inr (List.mem_cons_of_mem b h')

/-- C9.  Persisting bars with `updateSecurityData` is an insert-or-replace
upsert keyed by `(ticker, interval, datetime)`, and it is idempotent: for every
list of bars and every store state, running the batch twice leaves the store in
the same state as running it once. -/
theorem updateSecurityData_idempotent (pts s : List StorageSecurityBar) :
    updateSecurityData pts (updateSecurityData pts s) =
      updateSecurityData pts s := by
  rw [updateSecurityData_split pts (updateSecurityData pts s),
      updateSecurityData_split pts s]
  rw [List.filter_append, List.filter_filter]
  have h1 : List.filter
      (fun r => decide (barKey r ∉ pts.map barKey) &&
        decide (barKey r ∉ pts.map barKey)) s =
      List.filter (fun r => decide (barKey r ∉ pts.map barKey)) s := by
    apply List.filter_congr
    intro r _
    by_cases h : barKey r ∈ pts.map barKey <;> simp [h]
  have h2 : List.filter
      (fun r => decide (barKey r ∉ pts.map barKey))
      (updateSecurityData pts []) = [] := by
    apply List.filter_eq_nil_iff.mpr
    intro r hr
    have : r ∈ ([] : List StorageSecurityBar) ∨ r ∈ pts :=
      mem_updateSecurityData pts [] r hr
    rcases this with h' | h'
    · exact absurd h' (List.not_mem_nil r)
    · simp only [decide_eq_true_eq, Decidable.not_not]
      exact Decidable.not_not.mp (fun hc => hc (List.mem_map_of_mem barKey h'))
  rw [h1, h2, List.append_nil]

/-! ## Coverage analysis (`SqliteCacheService.analyzeCacheCoverage`)

The source walks the day axis from `request.startDate` to `request.endDate`
inclusive; whenever the current day is not in `cachedDates` it opens a missing
run, advances the inner `while` until a cached day or the end of the range, and
emits the run as one `DateRange`.  Days are modelled as natural numbers.

Both loops advance `currentDay` by one day per iteration, so `endD + 1 - cur`
iterations suffice; the loops are embedded with that iteration count as
explicit fuel (the fuel never runs out before the loop condition fails). -/

/-- The inner `while` loop of `analyzeCacheCoverage`: starting at `cur`, advance
one day at a time while `currentDay` is within the range and not cached; return
the first day where the condition fails. -/
def skipMissing (cached : Nat → Bool) (endD : Nat) : Nat → Nat → Nat
  | 0, cur => cur
  | fuel + 1, cur =>
    if cur ≤ endD ∧ cached cur = false then skipMissing cached endD fuel (cur + 1)
    else cur

/-- The outer `while` loop of `analyzeCacheCoverage`: day-by-day walk from `cur`
to `endD` inclusive, emitting each maximal missing run as a `DateRange`. -/
def walkGo (cached : Nat → Bool) (endD : Nat) : Nat → Nat → List DateRange
  | 0, _ => []
  | fuel + 1, cur =>
    if cur ≤ endD then
      if cached cur = false then
        let nxt := skipMissing cached endD (endD + 1 - cur) cur
        ⟨cur, nxt - 1⟩ :: walkGo cached endD fuel nxt
      else walkGo cached endD fuel (cur + 1)
    else []

/-- The day-by-day scan of `analyzeCacheCoverage` for one ticker: given the
membership test on the cached-date set, the list of missing `DateRange`s. -/
def walkMissing (cached : Nat → Bool) (startD endD : Nat) : List DateRange :=
  walkGo cached endD (endD + 1 - startD) startD

theorem skipMissing_ge (cached : Nat → Bool) (endD : Nat) :
    ∀ fuel cur, cur ≤ skipMissing cached endD fuel cur := by
  intro fuel
  induction fuel with
  | zero => intro cur; exact Nat.le_refl cur
  | succ fuel ih =>
    intro cur
    unfold skipMissing
    by_cases h : cur ≤ endD ∧ cached cur = false
    · simp only [h, if_true]
      exact Nat.le_trans (Nat.le_succ cur) (ih (cur + 1))
    · simp only [h, if_false]
      exact Nat.le_refl cur

theorem skipMissing_le (cached : Nat → Bool) (endD : Nat) :
    ∀ fuel cur, cur ≤ endD + 1 → skipMissing cached endD fuel cur ≤ endD + 1 := by
  intro fuel
  induction fuel with
  | zero => intro cur h; exact h
  | succ fuel ih =>
    intro cur h
    unfold skipMissing
    by_cases hc : cur ≤ endD ∧ cached cur = false
    · simp only [hc, if_true]
      exact ih (cur + 1) (Nat.succ_le_succ hc.1)
    · simp only [hc, if_false]; exact h

/-- With enough fuel, the inner loop stops at a day that is past the range end
or cached: the loop condition fails there. -/
theorem skipMissing_exit (cached : Nat → Bool) (endD : Nat) :
    ∀ fuel cur, endD + 1 - cur ≤ fuel →
      endD < skipMissing cached endD fuel cur ∨
        cached (skipMissing cached endD fuel cur) = true := by
  intro fuel
  induction fuel with
  | zero =>
    intro cur h
    have : endD < cur := by omega
    exact Or.inl this
  | succ fuel ih =>
    intro cur h
    unfold skipMissing
    by_cases hc : cur ≤ endD ∧ cached cur = false
    · simp only [hc, if_true]
      exact ih (cur + 1) (by omega)
    · simp only [hc, if_false]
      rcases Decidable.not_and_iff_or_not.mp hc with h1 | h2
      · exact Or.inl (by omega)
      · exact Or.inr (by simpa using h2)

/-- When the loop condition holds on entry, the inner loop advances at least one
day. -/
theorem skipMissing_gt (cached : Nat → Bool) (endD : Nat) (fuel cur : Nat)
    (hf : 1 ≤ fuel) (h : cur ≤ endD) (hm : cached cur = false) :
    cur + 1 ≤ skipMissing cached endD fuel cur := by
  cases fuel with
  | zero => omega
  | succ fuel =>
    unfold skipMissing
    simp only [h, hm, and_self, if_true]
    exact skipMissing_ge cached endD fuel (cur + 1)

theorem walkGo_of_lt (cached : Nat → Bool) (endD : Nat) (fuel cur : Nat)
    (h : endD < cur) : walkGo cached endD fuel cur = [] := by
  cases fuel with
  | zero => rfl
  | succ fuel =>
    unfold walkGo
    simp only [if_neg (by omega : ¬ cur ≤ endD)]

/-- Every emitted range lies inside `[cur, endD]`, is non-empty, and starts at
an uncached day. -/
theorem walkGo_mem (cached : Nat → Bool) (endD : Nat) :
    ∀ fuel cur, endD + 1 - cur ≤ fuel →
      ∀ r ∈ walkGo cached endD fuel cur,
        cur ≤ r.startDate ∧ r.startDate ≤ r.endDate ∧ r.endDate ≤ endD ∧
          cached r.startDate = false := by
  intro fuel
  induction fuel with
  | zero =>
    intro cur h r hr
    simp only [walkGo, List.not_mem_nil] at hr
  | succ fuel ih =>
    intro cur h r hr
    unfold walkGo at hr
    by_cases hle : cur ≤ endD
    · simp only [hle, if_true] at hr
      by_cases hm : cached cur = false
      · simp only [hm, if_true, List.mem_cons] at hr
        set nxt := skipMissing cached endD (endD + 1 - cur) cur with hnxt
        have hgt : cur + 1 ≤ nxt :=
          skipMissing_gt cached endD _ cur (by omega) hle hm
        have hub : nxt ≤ endD + 1 :=
          skipMissing_le cached endD _ cur (by omega)
        rcases hr with hr | hr
        · subst hr
          refine ⟨Nat.le_refl _, ?_, ?_, hm⟩
          · show cur ≤ nxt - 1
            omega
          · show nxt - 1 ≤ endD
            omega
        · have := ih nxt (by omega) r hr
          exact ⟨by omega, this.2.1, this.2.2.1, this.2.2.2⟩
      · simp only [hm, if_false] at hr
        have := ih (cur + 1) (by omega) r hr
        exact ⟨by omega, this.2.1, this.2.2.1, this.2.2.2⟩
    · simp only [hle, if_false, List.not_mem_nil] at hr

/-- The emitted ranges are pairwise separated: each range ends at least two days
before the next begins (sorted, non-overlapping, non-adjacent). -/
theorem walkGo_pairwise (cached : Nat → Bool) (endD : Nat) :
    ∀ fuel cur, endD + 1 - cur ≤ fuel →
      (walkGo cached endD fuel cur).Pairwise
        (fun a b => a.endDate + 1 < b.startDate) := by
  intro fuel
  induction fuel with
  | zero => intro cur h; simp [walkGo]
  | succ fuel ih =>
    intro cur h
    unfold walkGo
    by_cases hle : cur ≤ endD
    · simp only [hle, if_true]
      by_cases hm : cached cur = false
      · simp only [hm, if_true]
        set nxt := skipMissing cached endD (endD + 1 - cur) cur with hnxt
        have hgt : cur + 1 ≤ nxt :=
          skipMissing_gt cached endD _ cur (by omega) hle hm
        refine List.pairwise_cons.mpr ⟨?_, ih nxt (by omega)⟩
        intro r hr
        rcases skipMissing_exit cached endD (endD + 1 - cur) cur (by omega) with
          hpast | hcached
        · rw [walkGo_of_lt cached endD fuel nxt hpast] at hr
          exact absurd hr (List.not_mem_nil r)
        · -- the day `nxt` is cached, so the next range starts at `nxt + 1` or
          -- later; the emitted range ends at `nxt - 1`.
          have hmem := walkGo_mem cached endD fuel nxt (by omega) r hr
          have hne : r.startDate ≠ nxt := by
            intro heq
            rw [heq] at hmem
            rw [hmem.2.2.2] at hcached
            exact Bool.false_ne_true hcached
          have : nxt + 1 ≤ r.startDate := by
            rcases Nat.lt_or_ge r.startDate (nxt + 1) with hlt | hge
            · exact absurd (Nat.le_antisymm (by omega) hmem.1) hne
            · exact hge
          show nxt - 1 + 1 < r.startDate
          omega
      · simp only [hm, if_false]
        exact ih (cur + 1) (by omega)
    · simp only [hle, if_false]
      exact List.Pairwise.nil

/-- C4.  For every request and cache state, the missing ranges produced by the
day-by-day scan of `analyzeCacheCoverage` are maximal contiguous runs: each
range satisfies `startDate ≤ endDate` and lies inside the request, and the
ranges are pairwise sorted ascending, non-overlapping and non-adjacent (each
range ends at least two days before the next starts). -/
theorem walkMissing_invariant (cached : Nat → Bool) (startD endD : Nat) :
    (∀ r ∈ walkMissing cached startD endD,
        startD ≤ r.startDate ∧ r.startDate ≤ r.endDate ∧ r.endDate ≤ endD) ∧
      (walkMissing cached startD endD).Pairwise
        (fun a b => a.endDate + 1 < b.startDate) := by
  constructor
  · intro r hr
    have := walkGo_mem cached endD (endD + 1 - startD) startD (Nat.le_refl _) r hr
    exact ⟨this.1, this.2.1, this.2.2.1⟩
  · exact walkGo_pairwise cached endD (endD + 1 - startD) startD (Nat.le_refl _)

/-- Witness for C4 at a concrete cache state: days 1 and 4 cached in a request
spanning days 0–6 give missing runs `[0,0]`, `[2,3]`, `[5,6]`. -/
theorem walkMissing_invariant_witness :
    walkMissing (fun d => decide (d = 1 ∨ d = 4)) 0 6 =
        [⟨0, 0⟩, ⟨2, 3⟩, ⟨5, 6⟩] ∧
      (0 ≤ (2 : Nat) ∧ 2 ≤ 3 ∧ 3 ≤ 6) ∧ (0 : Nat) + 1 < 2 := by
  have hmem : (⟨2, 3⟩ : DateRange) ∈
      walkMissing (fun d => decide (d = 1 ∨ d = 4)) 0 6 := by decide
  have htail : (⟨2, 3⟩ : DateRange) ∈
      [(⟨2, 3⟩ : DateRange), ⟨5, 6⟩] := by decide
  have hpw := (walkMissing_invariant (fun d => decide (d = 1 ∨ d = 4)) 0 6).2
  have heq : walkMissing (fun d => decide (d = 1 ∨ d = 4)) 0 6 =
      [⟨0, 0⟩, ⟨2, 3⟩, ⟨5, 6⟩] := by decide
  refine ⟨heq, (walkMissing_invariant (fun d => decide (d = 1 ∨ d = 4)) 0 6).1
    ⟨2, 3⟩ hmem, ?_⟩
  rw [heq] at hpw
  exact List.rel_of_pairwise_cons hpw htail

/-! ### The per-ticker coverage computation

`analyzeCacheCoverage` prepares
`SELECT datetime FROM security_bar WHERE ticker = ? AND interval = ? AND
datetime >= ? AND datetime <= ? ORDER BY datetime ASC` and then builds
`cachedDates = new Set(results.map(row => row.date))`.  The selected rows carry
only a `datetime` column, so the `date` property read from each row is
`undefined`; `cachedDates` therefore never contains any formatted day string. -/

/-- A row returned by the coverage query: only the `datetime` column is
selected. -/
structure CoverageQueryRow where
  datetime : Nat
deriving DecidableEq

/-- The property access `row.date` performed by `analyzeCacheCoverage`.  The
query result rows have no `date` property (the column is named `datetime`), so
in JavaScript the access yields `undefined` for every row. -/
def coverageRowDate (_ : CoverageQueryRow) : Option Nat := none

/-- The coverage scan of `analyzeCacheCoverage` for one ticker, over an
in-memory model `store` of the `security_bar` table: run the query, build
`cachedDates` from `row.date`, then walk day by day from `startD` to `endD`. -/
def analyzeCoverageTicker (store : List StorageSecurityBar)
    (ticker interval : String) (startD endD : Nat) : List DateRange :=
  let results : List CoverageQueryRow :=
    (store.filter (fun b =>
      b.ticker = ticker ∧ b.interval = interval ∧
        startD ≤ b.datetime ∧ b.datetime ≤ endD)).map (fun b => ⟨b.datetime⟩)
  let cachedDates : List (Option Nat) := results.map coverageRowDate
  walkMissing (fun d => decide (some d ∈ cachedDates)) startD endD

/-- A cache state holding an AAPL daily bar for each of the five days 0–4,
fully covering the request of days 0–4. -/
def c3FullStore : List StorageSecurityBar :=
  (List.range 5).map (fun d =>
    { ticker := "AAPL", interval := "1d", datetime := d, openPrice := 1,
      high := 1, low := 1, close := 1, volume := 1, adjClose := none,
      splitCoefficient := none, dividendAmount := none })

/-- C3 (failing input).  For a request whose inclusive range (days 0–4) is
fully present in the cache at the requested interval, `analyzeCacheCoverage`
still returns one missing range spanning the whole request, not zero missing
ranges: the `row.date` property it reads from the query rows is undefined
(the selected column is `datetime`), so no day ever counts as cached.  For the
empty cache the same single full-span range is returned. -/
theorem analyzeCoverageTicker_full_cache_bug :
    analyzeCoverageTicker c3FullStore "AAPL" "1d" 0 4 = [⟨0, 4⟩] ∧
      analyzeCoverageTicker [] "AAPL" "1d" 0 4 = [⟨0, 4⟩] ∧
      ([⟨0, 4⟩] : List DateRange) ≠ [] := by
  refine ⟨by decide, by decide, by decide⟩

/-! ## Interval resampling (`AlphaVantageProvider.resampleData`)

`resampleData` accumulates bars into `currentGroup` and closes a group when the
bar's minute-of-hour is congruent to 0 modulo `targetMinutes` or the bar is the
last of the input; each closed group is aggregated into one output bar after
rescaling every bar to the split basis of the group's last bar. -/

/-- Model of `formatPeriod`: canonical human-readable interval label. -/
def formatPeriod (minutes : Nat) : String :=
  if 10080 ≤ minutes ∧ minutes % 10080 = 0 then toString (minutes / 10080) ++ "w"
  else if 1440 ≤ minutes ∧ minutes % 1440 = 0 then toString (minutes / 1440) ++ "d"
  else if 60 ≤ minutes ∧ minutes % 60 = 0 then toString (minutes / 60) ++ "hr"
  else toString minutes ++ "min"

/-- Model of `adjustBarToSplit`: rescale one bar to the split basis `targetSplit`.
The guard `!bar.splitCoefficient || bar.splitCoefficient === targetSplit`
returns the bar unchanged when the coefficient is absent, `0` (falsy), or
already equal to the target. -/
def adjustBarToSplit (bar : StorageSecurityBar) (targetSplit : ℚ) :
    StorageSecurityBar :=
  match bar.splitCoefficient with
  | none => bar
  | some sc =>
    if sc = 0 ∨ sc = targetSplit then bar
    else
      let rat := targetSplit / sc
      { bar with
        openPrice := bar.openPrice * rat
        high := bar.high * rat
        low := bar.low * rat
        close := bar.close * rat
        volume := bar.volume / rat }

/-- Model of `Math.max(...)` over a list of numbers (the empty case is unreachable in
the source, where the group is always non-empty). -/
def listMax : List ℚ → ℚ
  | [] => 0
  | h :: t => t.foldl max h

/-- Model of `Math.min(...)` over a list of numbers. -/
def listMin : List ℚ → ℚ
  | [] => 0
  | h :: t => t.foldl min h

/-- Model of `dayjs(bar.datetime).minute()`: minute-of-hour of a datetime counted in
minutes since an epoch. -/
def minuteOfHour (datetime : Nat) : Nat := datetime % 60

/-- Aggregation of one closed `currentGroup` inside `resampleData`: rescale all
bars to the split basis of the group's last bar, then take first open, max
high, min low, last close, summed volume and dividends, and the last bar's
datetime, adjusted close and split coefficient. -/
def aggregateGroup (targetMinutes : Nat) :
    List StorageSecurityBar → StorageSecurityBar
  | [] => default
  | first :: grest =>
    let last := (first :: grest).getLast (List.cons_ne_nil first grest)
    let lastSplit := last.splitCoefficient.getD 1
    let adjustedGroup :=
      (first :: grest).map (fun b => adjustBarToSplit b lastSplit)
    let firstAdjusted := adjustBarToSplit first lastSplit
    { ticker := first.ticker
      interval := formatPeriod targetMinutes
      datetime := last.datetime
      openPrice := firstAdjusted.openPrice
      high := listMax (adjustedGroup.map (fun b => b.high))
      low := listMin (adjustedGroup.map (fun b => b.low))
      close := last.close
      volume := adjustedGroup.foldl (fun sum b => sum + b.volume) 0
      adjClose := last.adjClose
      splitCoefficient := last.splitCoefficient
      dividendAmount :=
        some (adjustedGroup.foldl (fun sum b => sum + b.dividendAmount.getD 0) 0) }

/-- The `data.forEach` loop of `resampleData`, with the accumulated
`currentGroup` made explicit: a group closes when the current bar's
minute-of-hour is congruent to 0 modulo `targetMinutes` or the bar is the last
one. -/
def resampleGo (targetMinutes : Nat) :
    List StorageSecurityBar → List StorageSecurityBar →
      List StorageSecurityBar
  | _, [] => []
  | currentGroup, bar :: rest =>
    let group := currentGroup ++ [bar]
    if minuteOfHour bar.datetime % targetMinutes = 0 ∨ rest = [] then
      aggregateGroup targetMinutes group :: resampleGo targetMinutes [] rest
    else resampleGo targetMinutes group rest

/-- Model of `resampleData`: empty input gives empty output, otherwise run the grouping
loop with an initially empty `currentGroup`. -/
def resampleData (data : List StorageSecurityBar) (targetMinutes : Nat) :
    List StorageSecurityBar :=
  if data = [] then [] else resampleGo targetMinutes [] data

/-- C6.  `adjustBarToSplit` rescales a bar carrying split coefficient `s` to
the target basis: when `s` already equals the target the bar is returned
unchanged, and otherwise (for non-zero `s`) open, high, low and close are
multiplied by `targetSplit / s` and volume is divided by it. -/
theorem adjustBarToSplit_spec (bar : StorageSecurityBar) (targetSplit s : ℚ)
    (h : bar.splitCoefficient = some s) :
    (s = targetSplit → adjustBarToSplit bar targetSplit = bar) ∧
      (s ≠ 0 → s ≠ targetSplit →
        adjustBarToSplit bar targetSplit =
          { bar with
            openPrice := bar.openPrice * (targetSplit / s)
            high := bar.high * (targetSplit / s)
            low := bar.low * (targetSplit / s)
            close := bar.close * (targetSplit / s)
            volume := bar.volume / (targetSplit / s) }) := by
  constructor
  · intro he
    unfold adjustBarToSplit
    rw [h]
    simp [he]
  · intro h0 ht
    unfold adjustBarToSplit
    rw [h]
    simp [h0, ht]

/-- A bar on split basis 2, used to instantiate C6. -/
def c6Bar : StorageSecurityBar :=
  { ticker := "AAPL", interval := "1min", datetime := 0, openPrice := 10,
    high := 12, low := 9, close := 11, volume := 100, adjClose := none,
    splitCoefficient := some 2, dividendAmount := none }

theorem adjustBarToSplit_spec_witness :
    adjustBarToSplit c6Bar 4 =
      { c6Bar with
        openPrice := c6Bar.openPrice * (4 / 2)
        high := c6Bar.high * (4 / 2)
        low := c6Bar.low * (4 / 2)
        close := c6Bar.close * (4 / 2)
        volume := c6Bar.volume / (4 / 2) } :=
  (adjustBarToSplit_spec c6Bar 4 2 (by decide)).2 (by decide) (by decide)

theorem foldl_add_map (f : StorageSecurityBar → ℚ) :
    ∀ (l : List StorageSecurityBar) (init : ℚ),
      l.foldl (fun sum b => sum + f b) init = init + (l.map f).sum := by
  intro l
  induction l with
  | nil => intro init; simp
  | cons h t ih =>
    intro init
    simp only [List.foldl_cons, List.map_cons, List.sum_cons, ih, add_assoc]

theorem le_foldl_max (l : List ℚ) :
    ∀ a : ℚ, a ≤ l.foldl max a ∧ ∀ x ∈ l, x ≤ l.foldl max a := by
  induction l with
  | nil => intro a; simp
  | cons h t ih =>
    intro a
    refine ⟨le_trans (le_max_left a h) (ih (max a h)).1, ?_⟩
    intro x hx
    rcases List.mem_cons.mp hx with rfl | hx'
    · exact le_trans (le_max_right a x) (ih (max a x)).1
    · exact (ih (max a h)).2 x hx'

theorem foldl_max_mem (l : List ℚ) :
    ∀ a : ℚ, l.foldl max a = a ∨ l.foldl max a ∈ l := by
  induction l with
  | nil => intro a; simp
  | cons h t ih =>
    intro a
    simp only [List.foldl_cons]
    rcases ih (max a h) with heq | hmem
    · rcases max_choice a h with hm | hm
      · exact Or.inl (heq.trans hm)
      · exact Or.inr (by rw [heq, hm]; exact List.mem_cons_self h t)
    · exact Or.inr (List.mem_cons_of_mem h hmem)

theorem foldl_min_le (l : List ℚ) :
    ∀ a : ℚ, l.foldl min a ≤ a ∧ ∀ x ∈ l, l.foldl min a ≤ x := by
  induction l with
  | nil => intro a; simp
  | cons h t ih =>
    intro a
    refine ⟨le_trans (ih (min a h)).1 (min_le_left a h), ?_⟩
    intro x hx
    rcases List.mem_cons.mp hx with rfl | hx'
    · exact le_trans (ih (min a x)).1 (min_le_right a x)
    · exact (ih (min a h)).2 x hx'

theorem foldl_min_mem (l : List ℚ) :
    ∀ a : ℚ, l.foldl min a = a ∨ l.foldl min a ∈ l := by
  induction l with
  | nil => intro a; simp
  | cons h t ih =>
    intro a
    simp only [List.foldl_cons]
    rcases ih (min a h) with heq | hmem
    · rcases min_choice a h with hm | hm
      · exact Or.inl (heq.trans hm)
      · exact Or.inr (by rw [heq, hm]; exact List.mem_cons_self h t)
    · exact Or.inr (List.mem_cons_of_mem h hmem)

theorem listMax_spec (h : ℚ) (t : List ℚ) :
    listMax (h :: t) ∈ h :: t ∧ ∀ x ∈ h :: t, x ≤ listMax (h :: t) := by
  constructor
  · rcases foldl_max_mem t h with heq | hmem
    · rw [listMax, heq]; exact List.mem_cons_self h t
    · rw [listMax]; exact List.mem_cons_of_mem h hmem
  · intro x hx
    rcases List.mem_cons.mp hx with rfl | hx'
    · exact (le_foldl_max t x).1
    · exact (le_foldl_max t h).2 x hx'

theorem listMin_spec (h : ℚ) (t : List ℚ) :
    listMin (h :: t) ∈ h :: t ∧ ∀ x ∈ h :: t, listMin (h :: t) ≤ x := by
  constructor
  · rcases foldl_min_mem t h with heq | hmem
    · rw [listMin, heq]; exact List.mem_cons_self h t
    · rw [listMin]; exact List.mem_cons_of_mem h hmem
  · intro x hx
    rcases List.mem_cons.mp hx with rfl | hx'
    · exact (foldl_min_le t x).1
    · exact (foldl_min_le t h).2 x hx'

/-- When every bar of a group is already on the split basis of the group's
last bar (its coefficient is absent or equals that basis), the per-bar
adjustment is the identity on the whole group. -/
theorem adjustedGroup_eq_self (first : StorageSecurityBar)
    (grest : List StorageSecurityBar)
    (hsplit : ∀ b ∈ first :: grest,
      b.splitCoefficient = none ∨
        b.splitCoefficient = some
          (((first :: grest).getLast
            (List.cons_ne_nil first grest)).splitCoefficient.getD 1)) :
    (first :: grest).map (fun b =>
        adjustBarToSplit b
          (((first :: grest).getLast
            (List.cons_ne_nil first grest)).splitCoefficient.getD 1)) =
      first :: grest := by
  have hid : ∀ b ∈ first :: grest,
      adjustBarToSplit b
        (((first :: grest).getLast
          (List.cons_ne_nil first grest)).splitCoefficient.getD 1) = b := by
    intro b hb
    rcases hsplit b hb with hn | hs
    · unfold adjustBarToSplit
      rw [hn]
    · unfold adjustBarToSplit
      rw [hs]
      simp
  calc (first :: grest).map (fun b =>
        adjustBarToSplit b
          (((first :: grest).getLast
            (List.cons_ne_nil first grest)).splitCoefficient.getD 1)) =
      (first :: grest).map id := List.map_congr_left hid
    _ = first :: grest := List.map_id (first :: grest)

/-- C5.  For a non-empty group with no split boundary (every bar already on the
last bar's split basis), the aggregated bar has the first bar's open, the last
bar's close, the exact maximum of the highs, the minimum of the lows, the exact
sum of the volumes, and the sum of the dividends. -/
theorem aggregateGroup_no_split (t : Nat) (first : StorageSecurityBar)
    (grest : List StorageSecurityBar)
    (hsplit : ∀ b ∈ first :: grest,
      b.splitCoefficient = none ∨
        b.splitCoefficient = some
          (((first :: grest).getLast
            (List.cons_ne_nil first grest)).splitCoefficient.getD 1)) :
    (aggregateGroup t (first :: grest)).openPrice = first.openPrice ∧
      (aggregateGroup t (first :: grest)).close =
        ((first :: grest).getLast (List.cons_ne_nil first grest)).close ∧
      ((aggregateGroup t (first :: grest)).high ∈
          (first :: grest).map (fun b => b.high) ∧
        ∀ b ∈ first :: grest, b.high ≤ (aggregateGroup t (first :: grest)).high) ∧
      ((aggregateGroup t (first :: grest)).low ∈
          (first :: grest).map (fun b => b.low) ∧
        ∀ b ∈ first :: grest, (aggregateGroup t (first :: grest)).low ≤ b.low) ∧
      (aggregateGroup t (first :: grest)).volume =
        ((first :: grest).map (fun b => b.volume)).sum ∧
      (aggregateGroup t (first :: grest)).dividendAmount =
        some (((first :: grest).map (fun b => b.dividendAmount.getD 0)).sum) := by
  have hmap := adjustedGroup_eq_self first grest hsplit
  have hfirst : adjustBarToSplit first
      (((first :: grest).getLast
        (List.cons_ne_nil first grest)).splitCoefficient.getD 1) = first := by
    have h1 := congrArg (fun l => l.head?) hmap
    simpa using h1
  simp only [aggregateGroup, hmap, hfirst]
  refine ⟨trivial, trivial, ?_, ?_, ?_, ?_⟩
  · have := listMax_spec first.high (grest.map (fun b => b.high))
    constructor
    · simpa using this.1
    · intro b hb
      apply this.2
      simp only [List.map_cons] at *
      rcases List.mem_cons.mp hb with rfl | hb'
      · exact List.mem_cons_self _ _
      · exact List.mem_cons_of_mem _ (List.mem_map_of_mem _ hb')
  · have := listMin_spec first.low (grest.map (fun b => b.low))
    constructor
    · simpa using this.1
    · intro b hb
      apply this.2
      rcases List.mem_cons.mp hb with rfl | hb'
      · exact List.mem_cons_self _ _
      · exact List.mem_cons_of_mem _ (List.mem_map_of_mem _ hb')
  · rw [foldl_add_map (fun b => b.volume) (first :: grest) 0, zero_add]
  · rw [foldl_add_map (fun b => b.dividendAmount.getD 0) (first :: grest) 0,
      zero_add]

/-- Two bars on the same (absent) split basis, used to instantiate C5. -/
def c5Bar1 : StorageSecurityBar :=
  { ticker := "AAPL", interval := "1min", datetime := 31, openPrice := 10,
    high := 12, low := 9, close := 11, volume := 100, adjClose := none,
    splitCoefficient := none, dividendAmount := some 1 }

def c5Bar2 : StorageSecurityBar :=
  { ticker := "AAPL", interval := "1min", datetime := 32, openPrice := 11,
    high := 15, low := 10, close := 14, volume := 50, adjClose := none,
    splitCoefficient := none, dividendAmount := none }

theorem aggregateGroup_no_split_witness :
    (aggregateGroup 60 [c5Bar1, c5Bar2]).openPrice = c5Bar1.openPrice ∧
      (aggregateGroup 60 [c5Bar1, c5Bar2]).volume =
        ([c5Bar1, c5Bar2].map (fun b => b.volume)).sum :=
  ⟨(aggregateGroup_no_split 60 c5Bar1 [c5Bar2] (by decide)).1,
    (aggregateGroup_no_split 60 c5Bar1 [c5Bar2] (by decide)).2.2.2.2.1⟩

/-- Every bar emitted by the resampling loop aggregates a contiguous group of
the remaining input (prefixed by the bars already accumulated in
`currentGroup`). -/
theorem resampleGo_mem (t : Nat) :
    ∀ (l acc : List StorageSecurityBar), ∀ out ∈ resampleGo t acc l,
      ∃ (first : StorageSecurityBar) (grest : List StorageSecurityBar),
        (∃ pre post, acc ++ l = pre ++ (first :: grest) ++ post) ∧
          out = aggregateGroup t (first :: grest) := by
  intro l
  induction l with
  | nil =>
    intro acc out hout
    simp only [resampleGo, List.not_mem_nil] at hout
  | cons bar rest ih =>
    intro acc out hout
    unfold resampleGo at hout
    by_cases hb : minuteOfHour bar.datetime % t = 0 ∨ rest = []
    · simp only [hb, if_true, List.mem_cons] at hout
      rcases hout with hout | hout
      · rcases List.exists_cons_of_ne_nil
            (by simp : acc ++ [bar] ≠ ([] : List StorageSecurityBar)) with
          ⟨first, grest, hfg⟩
        refine ⟨first, grest, ⟨[], rest, ?_⟩, ?_⟩
        · rw [List.nil_append, ← hfg, List.append_assoc]
          simp
        · rw [hout, hfg]
      · rcases ih [] out hout with ⟨first, grest, ⟨pre, post, hsplit⟩, hagg⟩
        refine ⟨first, grest, ⟨acc ++ [bar] ++ pre, post, ?_⟩, hagg⟩
        simp only [List.nil_append] at hsplit
        rw [show acc ++ bar :: rest = (acc ++ [bar]) ++ rest by simp, hsplit]
        simp [List.append_assoc]
    · simp only [hb, if_false] at hout
      rcases ih (acc ++ [bar]) out hout with ⟨first, grest, ⟨pre, post, hsplit⟩, hagg⟩
      refine ⟨first, grest, ⟨pre, post, ?_⟩, hagg⟩
      rw [show acc ++ bar :: rest = (acc ++ [bar]) ++ rest by simp, hsplit]

/-- The aggregated bar copies `datetime`, `adjClose` and `splitCoefficient`
from the group's last bar. -/
theorem aggregateGroup_last_fields (t : Nat) (first : StorageSecurityBar)
    (grest : List StorageSecurityBar) :
    (aggregateGroup t (first :: grest)).datetime =
        ((first :: grest).getLast (List.cons_ne_nil first grest)).datetime ∧
      (aggregateGroup t (first :: grest)).adjClose =
        ((first :: grest).getLast (List.cons_ne_nil first grest)).adjClose ∧
      (aggregateGroup t (first :: grest)).splitCoefficient =
        ((first :: grest).getLast (List.cons_ne_nil first grest)).splitCoefficient := by
  simp [aggregateGroup]

/-- C10.  `resampleData` maps an empty input to an empty output, and every
output bar aggregates a contiguous non-empty group of input bars, carrying the
`datetime`, `adjClose` and `splitCoefficient` of that group's last bar. -/
theorem resampleData_groups (t : Nat) (data : List StorageSecurityBar) :
    resampleData [] t = [] ∧
      ∀ out ∈ resampleData data t,
        ∃ (first lastb : StorageSecurityBar) (grest : List StorageSecurityBar),
          (∃ pre post, data = pre ++ (first :: grest) ++ post) ∧
            (first :: grest).getLast (List.cons_ne_nil first grest) = lastb ∧
            out = aggregateGroup t (first :: grest) ∧
            out.datetime = lastb.datetime ∧
            out.adjClose = lastb.adjClose ∧
            out.splitCoefficient = lastb.splitCoefficient := by
  refine ⟨rfl, ?_⟩
  intro out hout
  unfold resampleData at hout
  by_cases hd : data = []
  · simp only [hd, if_true] at hout
    exact absurd hout (List.not_mem_nil out)
  · simp only [hd, if_false] at hout
    rcases resampleGo_mem t data [] out hout with
      ⟨first, grest, ⟨pre, post, hsplit⟩, hagg⟩
    simp only [List.nil_append] at hsplit
    refine ⟨first, (first :: grest).getLast (List.cons_ne_nil first grest),
      grest, ⟨pre, post, hsplit⟩, rfl, hagg, ?_, ?_, ?_⟩
    · rw [hagg]; exact (aggregateGroup_last_fields t first grest).1
    · rw [hagg]; exact (aggregateGroup_last_fields t first grest).2.1
    · rw [hagg]; exact (aggregateGroup_last_fields t first grest).2.2

theorem resampleData_groups_witness :
    ∃ (first lastb : StorageSecurityBar) (grest : List StorageSecurityBar),
      (∃ pre post, [c5Bar1, c5Bar2] = pre ++ (first :: grest) ++ post) ∧
        (first :: grest).getLast (List.cons_ne_nil first grest) = lastb ∧
        aggregateGroup 60 [c5Bar1, c5Bar2] = aggregateGroup 60 (first :: grest) ∧
        (aggregateGroup 60 [c5Bar1, c5Bar2]).datetime = lastb.datetime ∧
        (aggregateGroup 60 [c5Bar1, c5Bar2]).adjClose = lastb.adjClose ∧
        (aggregateGroup 60 [c5Bar1, c5Bar2]).splitCoefficient =
          lastb.splitCoefficient :=
  (resampleData_groups 60 [c5Bar1, c5Bar2]).2 (aggregateGroup 60 [c5Bar1, c5Bar2])
    (by
      have h : resampleData [c5Bar1, c5Bar2] 60 =
          [aggregateGroup 60 [c5Bar1, c5Bar2]] := rfl
      rw [h]
      exact List.mem_singleton.mpr rfl)

/-! ## Transform pipeline (`src/services/transform/service.ts`)

`applyTransforms` applies `adjustPricesTransform`, `calculateReturnsTransform`
and `mapColumnsTransform` in that fixed order.  `OutputSecurityBar` extends the
storage bar with optional return fields; every field except the identity
columns may be absent.  The request's parsed field selector is a list of
characters (`options.fields.split('')`). -/

structure OutputSecurityBar where
  ticker : String
  datetime : Nat
  interval : String
  openPrice : Option ℚ
  high : Option ℚ
  low : Option ℚ
  close : Option ℚ
  volume : Option ℚ
  adjClose : Option ℚ
  splitCoefficient : Option ℚ
  dividendAmount : Option ℚ
  open_return : Option ℚ
  high_return : Option ℚ
  low_return : Option ℚ
  close_return : Option ℚ
deriving DecidableEq

/-- JavaScript truthiness of an optional number: `undefined` and `0` are
falsy. -/
def truthy : Option ℚ → Bool
  | none => false
  | some q => decide (q ≠ 0)

/-- Model of `parseFloat(x.toFixed(4))`: round to 4 decimal places. -/
def round4 (q : ℚ) : ℚ := ((⌊q * 10000 + 1 / 2⌋ : ℤ) : ℚ) / 10000

/-- Model of `Math.round(x)`: round to the nearest integer, halves toward `+∞`. -/
def jsRound (q : ℚ) : ℚ := ((⌊q + 1 / 2⌋ : ℤ) : ℚ)

/-- One price field of the adjusted point:
`point.open && parseFloat((point.open * ratio).toFixed(4)) || point.open`.
An absent field stays absent; a zero field short-circuits to itself; a rounded
product of `0` falls back to the original value. -/
def adjPriceField (x : Option ℚ) (rat : ℚ) : Option ℚ :=
  match x with
  | none => none
  | some v =>
    if v = 0 then some v
    else if round4 (v * rat) = 0 then some v
    else some (round4 (v * rat))

/-- The volume field of the adjusted point:
`point.volume && Math.round(point.volume / ratio) || point.volume`. -/
def adjVolumeField (x : Option ℚ) (rat : ℚ) : Option ℚ :=
  match x with
  | none => none
  | some v =>
    if v = 0 then some v
    else if jsRound (v / rat) = 0 then some v
    else some (jsRound (v / rat))

/-- Model of `request.fields.some(f => ['a', 'd', 'r'].includes(f))`: the request asks
for an adjustment-dependent field. -/
def wantsAdjusted (fields : List Char) : Bool :=
  fields.any (fun f => decide (f ∈ (['a', 'd', 'r'] : List Char)))

/-- The per-point body of `adjustPricesTransform`: bars lacking a truthy
`splitCoefficient`, `adjClose` or `close` pass through unchanged; otherwise
`ratio = point.splitCoefficient || point.adjClose / point.close` (the guard
makes `splitCoefficient` truthy here, so the fallback never fires) scales the
price fields and divides the volume. -/
def adjustPoint (point : OutputSecurityBar) : OutputSecurityBar :=
  if truthy point.splitCoefficient = false ∨ truthy point.adjClose = false ∨
      truthy point.close = false then point
  else
    let rat :=
      if truthy point.splitCoefficient then point.splitCoefficient.getD 0
      else point.adjClose.getD 0 / point.close.getD 0
    { point with
      openPrice := adjPriceField point.openPrice rat
      high := adjPriceField point.high rat
      low := adjPriceField point.low rat
      close := adjPriceField point.close rat
      volume := adjVolumeField point.volume rat }

/-- Model of `adjustPricesTransform`: skipped when no adjustment-dependent field is
requested, otherwise applied point by point.  The `unadjusted` CLI declaration
is not part of `ValidatedSecurityRequest` and never reaches this transform. -/
def adjustPricesTransform (fields : List Char)
    (data : List OutputSecurityBar) : List OutputSecurityBar :=
  if wantsAdjusted fields = false then data
  else data.map adjustPoint

/-- The body of the `for` loop of `calculateReturnsTransform`, with the
previous bar made explicit.  A return field is set only when the matching raw
field letter is requested, the current value and the previous close are truthy,
and a previous bar exists with `close !== 0`. -/
def returnsGo (fields : List Char) :
    Option OutputSecurityBar → List OutputSecurityBar →
      List OutputSecurityBar
  | _, [] => []
  | prev, current :: rest =>
    let newPoint :=
      match prev with
      | none => current
      | some pb =>
        if pb.close ≠ some 0 then
          let np := current
          let np := if decide ('o' ∈ fields) ∧ truthy current.openPrice = true ∧
              truthy pb.close = true then
            { np with
              open_return := some (current.openPrice.getD 0 / pb.close.getD 0 - 1) }
            else np
          let np := if decide ('h' ∈ fields) ∧ truthy current.high = true ∧
              truthy pb.close = true then
            { np with
              high_return := some (current.high.getD 0 / pb.close.getD 0 - 1) }
            else np
          let np := if decide ('l' ∈ fields) ∧ truthy current.low = true ∧
              truthy pb.close = true then
            { np with
              low_return := some (current.low.getD 0 / pb.close.getD 0 - 1) }
            else np
          let np := if decide ('c' ∈ fields) ∧ truthy current.close = true ∧
              truthy pb.close = true then
            { np with
              close_return := some (current.close.getD 0 / pb.close.getD 0 - 1) }
            else np
          np
        else current
    newPoint :: returnsGo fields (some current) rest

/-- Model of `calculateReturnsTransform`: skipped unless `'r'` is requested. -/
def calculateReturnsTransform (fields : List Char)
    (data : List OutputSecurityBar) : List OutputSecurityBar :=
  if decide ('r' ∈ fields) = false then data
  else returnsGo fields none data

/-- The fresh `newPoint` of `mapColumnsTransform`: only the identity columns
are carried over. -/
def emptyProjection (point : OutputSecurityBar) : OutputSecurityBar :=
  { ticker := point.ticker, datetime := point.datetime,
    interval := point.interval, openPrice := none, high := none, low := none,
    close := none, volume := none, adjClose := none, splitCoefficient := none,
    dividendAmount := none, open_return := none, high_return := none,
    low_return := none, close_return := none }

/-- Model of `mapColumnsTransform`: project each point onto the identity columns plus
the requested fields; when only returns are requested the raw price columns
are dropped and the return fields copied when present. -/
def mapColumnsTransform (fields : List Char)
    (data : List OutputSecurityBar) : List OutputSecurityBar :=
  if fields = [] then data
  else
    let wantsReturns := decide ('r' ∈ fields)
    let wantsOnlyReturns := wantsReturns &&
      !((['o', 'h', 'l', 'c'] : List Char).any (fun o => decide (o ∈ fields)))
    data.map (fun point =>
      let np := emptyProjection point
      let np :=
        if wantsOnlyReturns then
          { np with
            open_return := point.open_return
            high_return := point.high_return
            low_return := point.low_return
            close_return := point.close_return }
        else
          { np with
            openPrice := if decide ('o' ∈ fields) then point.openPrice else none
            high := if decide ('h' ∈ fields) then point.high else none
            low := if decide ('l' ∈ fields) then point.low else none
            close := if decide ('c' ∈ fields) then point.close else none
            adjClose := if decide ('a' ∈ fields) then point.adjClose else none }
      let np :=
        { np with
          volume := if decide ('v' ∈ fields) then point.volume else np.volume
          dividendAmount :=
            if decide ('d' ∈ fields) ∨ decide ('s' ∈ fields) then
              point.dividendAmount
            else np.dividendAmount }
      if wantsReturns then
        { np with
          open_return := if decide ('o' ∈ fields) ∧ point.open_return ≠ none
            then point.open_return else np.open_return
          high_return := if decide ('h' ∈ fields) ∧ point.high_return ≠ none
            then point.high_return else np.high_return
          low_return := if decide ('l' ∈ fields) ∧ point.low_return ≠ none
            then point.low_return else np.low_return
          close_return := if decide ('c' ∈ fields) ∧ point.close_return ≠ none
            then point.close_return else np.close_return }
      else np)

/-- Model of `applyTransforms`: the fixed `TRANSFORMATION_PIPELINE` order — adjust,
returns, projection. -/
def applyTransforms (fields : List Char)
    (data : List OutputSecurityBar) : List OutputSecurityBar :=
  mapColumnsTransform fields
    (calculateReturnsTransform fields (adjustPricesTransform fields data))

/-- The slice of the raw CLI options (`FetchSecurityOptions`) relevant to the
adjustment transform: the parsed field selector and the `unadjusted`
declaration.  `validateAndBuildRequest` copies only `fields` into
`ValidatedSecurityRequest`, so the transforms never see `unadjusted`. -/
structure FetchSecurityOptions where
  fields : List Char
  unadjusted : Bool

/-- A bar carrying all adjustment inputs, used to instantiate C7. -/
def c7Bar : OutputSecurityBar :=
  { ticker := "AAPL", datetime := 0, interval := "1d", openPrice := some 10,
    high := some 10, low := some 10, close := some 100, volume := some 1000,
    adjClose := some 50, splitCoefficient := some 2, dividendAmount := none,
    open_return := none, high_return := none, low_return := none,
    close_return := none }

/-- A request that declares `unadjusted` while selecting the adjusted-close
field. -/
def c7Options : FetchSecurityOptions := { fields := ['a'], unadjusted := true }

/-- C7 (counterexample).  A request that declares `unadjusted` but selects the
adjustment-dependent field `'a'` is NOT skipped by the price-adjustment
transform: the transform reads only the field selector, never the `unadjusted`
declaration, and rescales the bar. -/
theorem c7_adjust_eval :
    adjustPricesTransform ['a'] [c7Bar] =
      [{ c7Bar with
          openPrice := some 20
          high := some 20
          low := some 20
          close := some 200
          volume := some 500 }] := by
  simp only [adjustPricesTransform, wantsAdjusted]
  norm_num [adjustPoint, truthy, c7Bar, adjPriceField, adjVolumeField, round4,
    jsRound]

theorem adjustPrices_ignores_unadjusted :
    c7Options.unadjusted = true ∧
      adjustPricesTransform c7Options.fields [c7Bar] ≠ [c7Bar] := by
  refine ⟨rfl, ?_⟩
  intro h
  have hf : c7Options.fields = ['a'] := rfl
  rw [hf, c7_adjust_eval] at h
  norm_num [c7Bar] at h

/-- C7 (amended).  The price-adjustment transform is skipped — it returns its
input unchanged, bar for bar — exactly when the request's field selector
contains no adjustment-dependent field (`'a'`, `'d'` or `'r'`); the
`unadjusted` declaration has no influence on it. -/
theorem adjustPricesTransform_skip (fields : List Char)
    (data : List OutputSecurityBar) (h : wantsAdjusted fields = false) :
    adjustPricesTransform fields data = data := by
  unfold adjustPricesTransform
  rw [h]
  simp

theorem adjustPricesTransform_skip_witness :
    adjustPricesTransform ['o', 'h', 'l', 'c', 'v'] [c7Bar] = [c7Bar] :=
  adjustPricesTransform_skip ['o', 'h', 'l', 'c', 'v'] [c7Bar] (by decide)

/-- A bar with `adjClose` and non-zero `close` but no split coefficient, used
to instantiate C8. -/
def c8Bar : OutputSecurityBar :=
  { ticker := "AAPL", datetime := 0, interval := "1d", openPrice := some 10,
    high := some 10, low := some 10, close := some 100, volume := some 1000,
    adjClose := some 50, splitCoefficient := none, dividendAmount := none,
    open_return := none, high_return := none, low_return := none,
    close_return := none }

/-- C8 (counterexample).  A bar with non-zero `close = 100` and
`adjClose = 50` but an absent split coefficient passes through the adjustment
transform unchanged: the claimed fallback `ratio = adjClose / close` (which
would rescale the close to `50`) never fires, because the guard already
returns any bar whose `splitCoefficient` is falsy. -/
theorem adjustPrices_no_fallback :
    adjustPricesTransform ['a'] [c8Bar] = [c8Bar] ∧
      c8Bar.close = some 100 ∧ c8Bar.adjClose = some 50 ∧
      c8Bar.splitCoefficient = none ∧
      round4 (100 * (50 / 100)) = 50 ∧ (50 : ℚ) ≠ 100 := by
  refine ⟨by decide, rfl, rfl, rfl, by norm_num [round4], by norm_num⟩

/-- C8 (amended).  In the adjustment transform the ratio is always the bar's
split coefficient: for each bar with truthy `splitCoefficient`, `adjClose` and
`close`, open/high/low/close map to the 4-decimal rounding of value × ratio
(kept unchanged when the rounding gives 0) and volume to the nearest-integer
rounding of value / ratio; every bar lacking any of the three fields — in
particular one with an absent split coefficient, whatever its `adjClose` —
passes through unchanged, and the `adjClose / close` fallback is dead code. -/
theorem adjustPoint_spec (p : OutputSecurityBar) :
    (∀ sc : ℚ, p.splitCoefficient = some sc → sc ≠ 0 →
      truthy p.adjClose = true → truthy p.close = true →
      adjustPoint p =
        { p with
          openPrice := adjPriceField p.openPrice sc
          high := adjPriceField p.high sc
          low := adjPriceField p.low sc
          close := adjPriceField p.close sc
          volume := adjVolumeField p.volume sc }) ∧
      (truthy p.splitCoefficient = false ∨ truthy p.adjClose = false ∨
          truthy p.close = false →
        adjustPoint p = p) ∧
      (∀ (fields : List Char) (data : List OutputSecurityBar),
        wantsAdjusted fields = true →
          adjustPricesTransform fields data = data.map adjustPoint) := by
  refine ⟨?_, ?_, ?_⟩
  · intro sc hsc hne hac hc
    unfold adjustPoint
    have hts : truthy p.splitCoefficient = true := by
      rw [hsc]; simpa [truthy] using hne
    rw [hts, hac, hc]
    simp only [Bool.true_eq_false, or_self, if_false, if_true, hsc, Option.getD_some]
  · intro h
    unfold adjustPoint
    rcases h with h | h | h <;> simp [h]
  · intro fields data h
    unfold adjustPricesTransform
    rw [h]
    simp

theorem adjustPoint_spec_witness :
    adjustPoint c7Bar =
      { c7Bar with
        openPrice := adjPriceField c7Bar.openPrice 2
        high := adjPriceField c7Bar.high 2
        low := adjPriceField c7Bar.low 2
        close := adjPriceField c7Bar.close 2
        volume := adjVolumeField c7Bar.volume 2 } :=
  (adjustPoint_spec c7Bar).1 2 (by decide) (by decide) (by decide) (by decide)

/-- The three bars of the projection-selectivity scenario: closes 10, 11, 9. -/
def c2Bar (i : Nat) (c : ℚ) : OutputSecurityBar :=
  { ticker := "AAPL", datetime := i, interval := "1d", openPrice := none,
    high := none, low := none, close := some c, volume := none,
    adjClose := none, splitCoefficient := none, dividendAmount := none,
    open_return := none, high_return := none, low_return := none,
    close_return := none }

def c2Bars : List OutputSecurityBar := [c2Bar 0 10, c2Bar 1 11, c2Bar 2 9]

/-- C2 (failing input).  Requesting fields `"r"` only on the 3-bar series with
closes `[10, 11, 9]`: the pipeline outputs records with NO `close_return` at
all (and no raw price fields) — `calculateReturnsTransform` computes
`close_return` only when `'c'` is also requested, so the claimed values
`0.1` and `9/11 - 1` never appear. -/
theorem applyTransforms_returns_only_eval :
    (applyTransforms ['r'] c2Bars).map (fun p => p.close_return) =
        [none, none, none] ∧
      (applyTransforms ['r'] c2Bars).map (fun p => p.close) =
        [none, none, none] ∧
      (applyTransforms ['r'] c2Bars).map (fun p => p.open_return) =
        [none, none, none] ∧
      (applyTransforms ['r'] c2Bars).map (fun p => p.close_return) ≠
        [none, some (11 / 10 - 1), some (9 / 11 - 1)] := by
  refine ⟨by decide, by decide, by decide, by decide⟩

/-- Contrast establishing the slip: with `'c'` requested alongside `'r'`, the
same series does produce `close_return = 1/10` on the second bar and
`9/11 - 1` on the third — the returns machinery works only when the raw field
letter is present, making the returns-only branch of `mapColumnsTransform`
unreachable. -/
theorem applyTransforms_close_and_returns_eval :
    (applyTransforms ['c', 'r'] c2Bars).map (fun p => p.close_return) =
      [none, some (1 / 10), some (9 / 11 - 1)] := by
  norm_num [applyTransforms, adjustPricesTransform, wantsAdjusted, adjustPoint,
    calculateReturnsTransform, returnsGo, mapColumnsTransform, truthy,
    emptyProjection, c2Bars, c2Bar]
  simp

/-! ## The 'use'-policy merge (`fetchSecurityCommand`)

Under the default `use` cache policy, after fetching the missing data the
command merges cached and fresh bars with

`groupByKeyFn([...cachedData, ...newData], r => ticker|interval|datetime)
   .map(bar => bar[1][0])
   .sort((a, b) => dayjs(a.datetime).diff(dayjs(b.datetime)))`

`groupByKeyFn` (from `src/utils/array.ts`) groups in first-occurrence order,
appending later rows with the same key to the group; `bar[1][0]` picks each
group's FIRST element.  JavaScript `Array.prototype.sort` is stable and the
comparator orders by datetime; it is modelled by the stable `List.mergeSort`. -/

/-- The template literal key used by the merge. -/
def barKeyStr (b : StorageSecurityBar) : String :=
  b.ticker ++ "|" ++ b.interval ++ "|" ++ toString b.datetime

/-- One step of `mapByKeyFn`'s reduce: append `v` to its key's group if the
key is present (JavaScript `Map` keeps insertion order), else add a new entry
at the end. -/
def mapByKeyFnStep (v : StorageSecurityBar)
    (m : List (String × List StorageSecurityBar)) :
    List (String × List StorageSecurityBar) :=
  if m.any (fun e => e.1 = barKeyStr v) then
    m.map (fun e => if e.1 = barKeyStr v then (e.1, e.2 ++ [v]) else e)
  else m ++ [(barKeyStr v, [v])]

/-- Model of `groupByKeyFn(rows, keyFn)`: the `Map` entries in insertion order. -/
def groupByKeyFn (rows : List StorageSecurityBar) :
    List (String × List StorageSecurityBar) :=
  rows.foldl (fun m v => mapByKeyFnStep v m) []

/-- The sort comparator `(a, b) => dayjs(a.datetime).diff(dayjs(b.datetime))`
keeps `a` before `b` when the difference is non-positive. -/
def dateLe (a b : StorageSecurityBar) : Bool := decide (a.datetime ≤ b.datetime)

/-- The 'use'-policy merge of cached and freshly fetched bars in
`fetchSecurityCommand`. -/
def mergeUse (cachedData newData : List StorageSecurityBar) :
    List StorageSecurityBar :=
  ((groupByKeyFn (cachedData ++ newData)).map (fun e => e.2.headI)).mergeSort
    dateLe

/-- Reference deduplication keeping the FIRST occurrence of each key, in
encounter order (spec-side description of what the group-then-take-head
computation does). -/
def dedupStep (acc : List StorageSecurityBar) (v : StorageSecurityBar) :
    List StorageSecurityBar :=
  if acc.any (fun r => barKeyStr r = barKeyStr v) then acc else acc ++ [v]

def dedupKeepFirst (rows : List StorageSecurityBar) :
    List StorageSecurityBar :=
  rows.foldl dedupStep []

theorem any_key_eq (m : List (String × List StorageSecurityBar)) (k : String) :
    m.any (fun e => e.1 = k) = (m.map Prod.fst).any (fun x => x = k) := by
  induction m with
  | nil => rfl
  | cons h t ih => simp [ih]

theorem any_barKey_eq (acc : List StorageSecurityBar) (k : String) :
    (acc.map barKeyStr).any (fun x => x = k) =
      acc.any (fun r => barKeyStr r = k) := by
  induction acc with
  | nil => rfl
  | cons h t ih => simp [ih]

theorem headI_append_singleton (l : List StorageSecurityBar)
    (v : StorageSecurityBar) (h : l ≠ []) : (l ++ [v]).headI = l.headI := by
  cases l with
  | nil => exact absurd rfl h
  | cons x xs => rfl

/-- Invariant of the grouping fold: the entry keys mirror the keys of the
deduplicated accumulator, the group heads are exactly the deduplicated rows,
and every group is non-empty. -/
theorem groupBy_invariant (rows : List StorageSecurityBar) :
    ∀ (m : List (String × List StorageSecurityBar))
      (acc : List StorageSecurityBar),
      m.map Prod.fst = acc.map barKeyStr →
      m.map (fun e => e.2.headI) = acc →
      (∀ e ∈ m, e.2 ≠ []) →
      (rows.foldl (fun m v => mapByKeyFnStep v m) m).map Prod.fst =
          (rows.foldl dedupStep acc).map barKeyStr ∧
        (rows.foldl (fun m v => mapByKeyFnStep v m) m).map
            (fun e => e.2.headI) =
          rows.foldl dedupStep acc ∧
        ∀ e ∈ rows.foldl (fun m v => mapByKeyFnStep v m) m, e.2 ≠ [] := by
  induction rows with
  | nil => intro m acc h1 h2 h3; exact ⟨h1, h2, h3⟩
  | cons v rest ih =>
    intro m acc h1 h2 h3
    simp only [List.foldl_cons]
    have hany : (m.any (fun e => e.1 = barKeyStr v)) =
        (acc.any (fun r => barKeyStr r = barKeyStr v)) := by
      rw [any_key_eq m (barKeyStr v), h1, any_barKey_eq acc (barKeyStr v)]
    by_cases hc : acc.any (fun r => barKeyStr r = barKeyStr v) = true
    · have hstep : mapByKeyFnStep v m =
          m.map (fun e => if e.1 = barKeyStr v then (e.1, e.2 ++ [v]) else e) := by
        unfold mapByKeyFnStep
        rw [hany, hc]
        simp
      have hd : dedupStep acc v = acc := by
        unfold dedupStep
        rw [hc]
        simp
      rw [hstep, hd]
      apply ih
      · rw [List.map_map, ← h1]
        apply List.map_congr_left
        intro e _
        by_cases he : e.1 = barKeyStr v <;> simp [he]
      · rw [List.map_map, ← h2]
        apply List.map_congr_left
        intro e he
        by_cases hk : e.1 = barKeyStr v
        · simp only [Function.comp_apply, hk, if_true]
          exact headI_append_singleton e.2 v (h3 e he)
        · simp [hk]
      · intro e he
        rcases List.mem_map.mp he with ⟨e', he', heq⟩
        by_cases hk : e'.1 = barKeyStr v
        · rw [← heq]
          simp only [hk, if_true]
          simp
        · rw [← heq]
          simp only [hk, if_false]
          exact h3 e' he'
    · have hcf : acc.any (fun r => barKeyStr r = barKeyStr v) = false :=
        Bool.eq_false_iff.mpr hc
      have hstep : mapByKeyFnStep v m = m ++ [(barKeyStr v, [v])] := by
        unfold mapByKeyFnStep
        rw [hany, hcf]
        simp
      have hd : dedupStep acc v = acc ++ [v] := by
        unfold dedupStep
        rw [hcf]
        simp
      rw [hstep, hd]
      apply ih
      · simp [h1]
      · simp [h2]
      · intro e he
        rcases List.mem_append.mp he with he' | he'
        · exact h3 e he'
        · simp only [List.mem_singleton] at he'
          rw [he']
          simp

/-- The grouped-then-first-of-each-group computation of the merge equals
first-occurrence deduplication by the composite key. -/
theorem groupByKeyFn_heads (rows : List StorageSecurityBar) :
    (groupByKeyFn rows).map (fun e => e.2.headI) = dedupKeepFirst rows :=
  (groupBy_invariant rows [] [] (by simp) (by simp) (by simp)).2.1

theorem dateLe_trans (a b c : StorageSecurityBar) :
    dateLe a b = true → dateLe b c = true → dateLe a c = true := by
  simp only [dateLe, decide_eq_true_eq]
  omega

theorem dateLe_total (a b : StorageSecurityBar) :
    (dateLe a b || dateLe b a) = true := by
  simp only [dateLe, Bool.or_eq_true, decide_eq_true_eq]
  omega

/-- C1 (amended).  The 'use'-policy merge deduplicates `cached ++ fresh` by
the composite key `(ticker, interval, datetime)` keeping the FIRST occurrence
— i.e. the cached bar is preferred over the fresh bar on every key collision —
and sorts the result ascending by datetime. -/
theorem mergeUse_spec (cachedData newData : List StorageSecurityBar) :
    mergeUse cachedData newData =
        (dedupKeepFirst (cachedData ++ newData)).mergeSort dateLe ∧
      (mergeUse cachedData newData).Pairwise
        (fun a b => a.datetime ≤ b.datetime) := by
  constructor
  · unfold mergeUse
    rw [groupByKeyFn_heads]
  · unfold mergeUse
    rw [groupByKeyFn_heads]
    have h := List.sorted_mergeSort dateLe_trans dateLe_total
      (dedupKeepFirst (cachedData ++ newData))
    exact h.imp (fun hab => by simpa [dateLe] using hab)

/-- The cached copy of the colliding bar (close = 100). -/
def c1Cached : StorageSecurityBar :=
  { ticker := "AAPL", interval := "1d", datetime := 2, openPrice := 99,
    high := 102, low := 98, close := 100, volume := 1000, adjClose := none,
    splitCoefficient := none, dividendAmount := none }

/-- The freshly fetched copy of the same key (close = 101). -/
def c1Fresh : StorageSecurityBar :=
  { ticker := "AAPL", interval := "1d", datetime := 2, openPrice := 99,
    high := 102, low := 98, close := 101, volume := 1000, adjClose := none,
    splitCoefficient := none, dividendAmount := none }

/-- C1 (counterexample).  Merging cached `(AAPL, 1d, day 2, close = 100)` with
fresh `(AAPL, 1d, day 2, close = 101)` under the 'use' policy yields the
CACHED bar — close 100, not the claimed 101: `bar[1][0]` takes the first
element of each group, and the cached data precedes the fresh data in the
grouped concatenation. -/
theorem mergeUse_cached_wins :
    mergeUse [c1Cached] [c1Fresh] = [c1Cached] ∧
      c1Cached.close = 100 ∧ c1Fresh.close = 101 ∧
      (mergeUse [c1Cached] [c1Fresh]).map (fun b => b.close) ≠ [101] := by
  have h : (groupByKeyFn ([c1Cached] ++ [c1Fresh])).map (fun e => e.2.headI) =
      [c1Cached] := by decide
  have hm : mergeUse [c1Cached] [c1Fresh] = [c1Cached] := by
    unfold mergeUse
    rw [h]
    exact List.mergeSort_singleton c1Cached
  refine ⟨hm, rfl, rfl, ?_⟩
  rw [hm]
  decide
